import Mathlib

/-!
Verification of the markup-to-positional-edit-operations compiler
(`markdown_to_docs_requests` in `google_docs_integration.py`).

The compiler walks a markdown-it token stream once, emitting text-insertion
requests immediately and deferring style/structure requests, and finally
returns the insertion list followed by the formatting list.  Tokenisation of
the markup text is done by the external `markdown_it` library; the embedding
therefore takes the token stream as input, and concrete example claims use
the token streams that the standard markdown grammar produces for the quoted
markup inputs.
-/

/-- Inline child tokens, as consumed by the child loop of
`markdown_to_docs_requests` (`strong_open`/`strong_close`, `em_open`/`em_close`,
`softbreak`, `text`); any other child type falls through the chain of `if`s
and has no effect, modelled by `unsupported`. -/
inductive Child where
  | strong_open : Child
  | strong_close : Child
  | em_open : Child
  | em_close : Child
  | softbreak : Child
  | text (content : String) : Child
  | unsupported : Child
deriving DecidableEq, Repr

/-- Top-level tokens as consumed by the main token loop.  `heading_open`
carries the level `int(token.tag[1])`.  `paragraph_close` and any token type
not matched by the `elif` chain leave the state unchanged; unmatched types
are modelled by `unsupported`. -/
inductive Token where
  | heading_open (level : Nat) : Token
  | heading_close : Token
  | paragraph_open : Token
  | paragraph_close : Token
  | inline (children : List Child) : Token
  | unsupported : Token
deriving DecidableEq, Repr

/-- Paragraph style payload of an `updateParagraphStyle` request: either a
`namedStyleType` (heading tier or `NORMAL_TEXT`) or `spaceBelow` with a
magnitude in points (the source uses the fixed value 10.0 PT, an integral
float modelled as the natural number 10). -/
inductive ParaStyle where
  | namedStyleType (name : String) : ParaStyle
  | spaceBelowPT (magnitude : Nat) : ParaStyle
deriving DecidableEq, Repr

/-- A Google Docs batchUpdate request as emitted by the compiler.
For `updateTextStyle` the two booleans record which of `bold`/`italic` were
set in the `textStyle` dict; the `fields` string of the source is determined
by them (`','.join` of the set flags). -/
inductive Request where
  | insertText (index : Nat) (text : String) : Request
  | updateTextStyle (startIndex endIndex : Nat) (bold italic : Bool) : Request
  | updateParagraphStyle (startIndex endIndex : Nat) (style : ParaStyle) : Request
deriving DecidableEq, Repr

/-- The `heading_map` dict together with the `.get(level, 'NORMAL_TEXT')`
lookup used at the emission site. -/
def heading_map (level : Nat) : String :=
  if level = 1 then "HEADING_1"
  else if level = 2 then "HEADING_2"
  else if level = 3 then "HEADING_3"
  else "NORMAL_TEXT"

/-- Mutable state of the inner child loop: the two request accumulators, the
cursor `current_index`, and the per-paragraph `is_bold`/`is_italic` flags. -/
structure InlineState where
  requests : List Request
  formatting_requests : List Request
  current_index : Nat
  is_bold : Bool
  is_italic : Bool
deriving DecidableEq, Repr

/-- One iteration of the child loop of `markdown_to_docs_requests`
(source lines 69–137). -/
def processChild (st : InlineState) (child : Child) : InlineState :=
  match child with
  | Child.strong_open => { st with is_bold := true }
  | Child.strong_close => { st with is_bold := false }
  | Child.em_open => { st with is_italic := true }
  | Child.em_close => { st with is_italic := false }
  | Child.softbreak =>
      { st with
        requests := st.requests ++ [Request.insertText st.current_index " "],
        current_index := st.current_index + 1 }
  | Child.text content =>
      if content ≠ "" then
        let text_length := content.length
        let text_start := st.current_index
        let text_end := st.current_index + text_length
        let requests2 := st.requests ++ [Request.insertText st.current_index content]
        let fmts2 :=
          if st.is_bold || st.is_italic then
            st.formatting_requests ++
              [Request.updateTextStyle text_start text_end st.is_bold st.is_italic]
          else st.formatting_requests
        { st with
          requests := requests2,
          formatting_requests := fmts2,
          current_index := text_end }
      else st
  | Child.unsupported => st

/-- The full child loop (`for child in token.children`). -/
def processChildren (children : List Child) (st : InlineState) : InlineState :=
  children.foldl processChild st

/-- Mutable state of the main token loop: the two accumulators, the cursor
and `current_heading_level`. -/
structure CompState where
  requests : List Request
  formatting_requests : List Request
  current_index : Nat
  current_heading_level : Option Nat
deriving DecidableEq, Repr

/-- The `i > 0 and tokens[i-1].type == 'paragraph_open'` test, with the
previous token carried explicitly (`none` at the first iteration). -/
def prevIsParagraphOpen : Option Token → Bool
  | some Token.paragraph_open => true
  | _ => false

/-- Inline-loop state at the start of an `inline` token: the accumulators and
cursor so far, with the `is_bold`/`is_italic` flags freshly reset. -/
def inlineInit (st : CompState) : InlineState :=
  { requests := st.requests,
    formatting_requests := st.formatting_requests,
    current_index := st.current_index,
    is_bold := false, is_italic := false }

/-- Block-level formatting recorded after an inline token (source lines
150–186): nothing when the paragraph is empty; a heading named style when a
heading level is active; a `spaceBelow` spacing when the preceding token was
`paragraph_open`; nothing otherwise. -/
def paragraphFormatting (heading : Option Nat) (afterParagraphOpen : Bool)
    (paragraph_start_index paragraph_end_index : Nat) : List Request :=
  if paragraph_end_index > paragraph_start_index then
    match heading with
    | some level =>
        [Request.updateParagraphStyle paragraph_start_index paragraph_end_index
          (ParaStyle.namedStyleType (heading_map level))]
    | none =>
        if afterParagraphOpen then
          [Request.updateParagraphStyle paragraph_start_index paragraph_end_index
            (ParaStyle.spaceBelowPT 10)]
        else []
  else []

/-- One iteration of the main token loop of `markdown_to_docs_requests`
(source lines 50–186).  `prev` is `tokens[i-1]` when `i > 0`. -/
def stepToken (t : Token) (prev : Option Token) (st : CompState) : CompState :=
  match t with
  | Token.heading_open level => { st with current_heading_level := some level }
  | Token.heading_close => { st with current_heading_level := none }
  | Token.inline children =>
      let paragraph_start_index := st.current_index
      let is1 := processChildren children (inlineInit st)
      let requests2 := is1.requests ++ [Request.insertText is1.current_index "\n"]
      let newline_index := is1.current_index
      let paragraph_end_index := newline_index
      let fmts2 := is1.formatting_requests ++
        paragraphFormatting st.current_heading_level (prevIsParagraphOpen prev)
          paragraph_start_index paragraph_end_index
      { requests := requests2,
        formatting_requests := fmts2,
        current_index := newline_index + 1,
        current_heading_level := st.current_heading_level }
  | Token.paragraph_open => st
  | Token.paragraph_close => st
  | Token.unsupported => st

/-- The main token loop, threading the previous token. -/
def processTokens : List Token → Option Token → CompState → CompState
  | [], _, st => st
  | t :: ts, prev, st => processTokens ts (some t) (stepToken t prev st)

/-- Initial state of a compilation run: the optional two-newline separator
prepended when `start_index > 1` (source lines 25–37, 47). -/
def initState (start_index : Nat) : CompState :=
  if start_index > 1 then
    { requests := [Request.insertText start_index "\n\n"],
      formatting_requests := [],
      current_index := start_index + 2,
      current_heading_level := none }
  else
    { requests := [],
      formatting_requests := [],
      current_index := start_index,
      current_heading_level := none }

/-- Final loop state of a compilation run; its `current_index` is the final
cursor value. -/
def compileState (tokens : List Token) (start_index : Nat) : CompState :=
  processTokens tokens none (initState start_index)

/-- `markdown_to_docs_requests`: text insertion requests first, then
formatting requests (source line 190). -/
def markdown_to_docs_requests (tokens : List Token) (start_index : Nat) : List Request :=
  (compileState tokens start_index).requests ++
    (compileState tokens start_index).formatting_requests

/-- Whether a request is a text insertion (`insertText`). -/
def isInsert : Request → Bool
  | Request.insertText _ _ => true
  | _ => false

/-- Whether a request is a character-style operation (`updateTextStyle`). -/
def isTextStyle : Request → Bool
  | Request.updateTextStyle _ _ _ _ => true
  | _ => false

/-- Whether a request is a spaced-paragraph structure operation
(`updateParagraphStyle` with `spaceBelow`). -/
def isParaSpace : Request → Bool
  | Request.updateParagraphStyle _ _ (ParaStyle.spaceBelowPT _) => true
  | _ => false

/-- Number of characters a request inserts (0 for style operations). -/
def insertLen : Request → Nat
  | Request.insertText _ t => t.length
  | _ => 0

/-- Total number of characters inserted by a request list. -/
def sumInsertLens (l : List Request) : Nat :=
  (l.map insertLen).sum

/-- Shift every offset of a request by `d` (used to relate a batch compiled
at offset `N > 1` to the batch compiled at offset 1). -/
def shiftReq (d : Nat) : Request → Request
  | Request.insertText o t => Request.insertText (o + d) t
  | Request.updateTextStyle s e b i => Request.updateTextStyle (s + d) (e + d) b i
  | Request.updateParagraphStyle s e ps => Request.updateParagraphStyle (s + d) (e + d) ps

/-- Token stream the markdown grammar produces for plain text with no markup
syntax: each paragraph is `paragraph_open`, one `inline` with a single text
child, `paragraph_close`. -/
def plainTokens : List String → List Token
  | [] => []
  | s :: rest =>
      Token.paragraph_open :: Token.inline [Child.text s] ::
        Token.paragraph_close :: plainTokens rest

/-- Token stream for the markup `# Title` (a level-1 heading). -/
def titleTokens : List Token :=
  [Token.heading_open 1, Token.inline [Child.text "Title"], Token.heading_close]

/-- Token stream for the markup `**bold** **bold**` (one paragraph). -/
def doubleBoldTokens : List Token :=
  [Token.paragraph_open,
   Token.inline
     [Child.strong_open, Child.text "bold", Child.strong_close,
      Child.text " ",
      Child.strong_open, Child.text "bold", Child.strong_close],
   Token.paragraph_close]

/-! ### Segment specification

Both loops only ever append to the two accumulators and only ever advance the
cursor; `Seg` projects the shared observable part of a loop state and
`SegSpec` captures what one loop segment can do to it. -/

/-- Observable part of a loop state: the two accumulators and the cursor. -/
structure Seg where
  requests : List Request
  formatting_requests : List Request
  current_index : Nat

/-- `Seg` view of an inline-loop state. -/
def InlineState.toSeg (st : InlineState) : Seg :=
  ⟨st.requests, st.formatting_requests, st.current_index⟩

/-- `Seg` view of a token-loop state. -/
def CompState.toSeg (st : CompState) : Seg :=
  ⟨st.requests, st.formatting_requests, st.current_index⟩

/-- Shape of a deferred formatting request emitted while the cursor moved
from `lo` to `hi`: a character style or a paragraph style over a nonempty
range inside `[lo, hi]`. -/
def styleShape (lo hi : Nat) (r : Request) : Prop :=
  (∃ s e b i, r = Request.updateTextStyle s e b i ∧ lo ≤ s ∧ s < e ∧ e ≤ hi) ∨
  (∃ s e ps, r = Request.updateParagraphStyle s e ps ∧ lo ≤ s ∧ s < e ∧ e ≤ hi)

/-- What one segment of either loop does: it appends insertion requests whose
spans tile the cursor advance and deferred style requests bounded by the two
cursor values, the first appended insertion (if any) sits exactly at the old
cursor, and the cursor does not move without an insertion. -/
def SegSpec (a c : Seg) : Prop :=
  ∃ dr df,
    c.requests = a.requests ++ dr ∧
    c.formatting_requests = a.formatting_requests ++ df ∧
    sumInsertLens dr + a.current_index = c.current_index ∧
    (∀ r ∈ dr, ∃ o t, r = Request.insertText o t ∧
       a.current_index ≤ o ∧ o + t.length ≤ c.current_index) ∧
    (∀ r ∈ df, styleShape a.current_index c.current_index r) ∧
    (dr = [] → c.current_index = a.current_index) ∧
    (∀ r rest, dr = r :: rest → ∃ t, r = Request.insertText a.current_index t)

theorem segSpec_refl (a : Seg) : SegSpec a a := by
  refine ⟨[], [], by simp, by simp, by simp [sumInsertLens], by simp, by simp, by simp, ?_⟩
  intro r rest h
  cases h

theorem segSpec_mono {a c : Seg} (h : SegSpec a c) :
    a.current_index ≤ c.current_index := by
  obtain ⟨dr, df, _, _, hsum, _⟩ := h
  omega

theorem sumInsertLens_append (l1 l2 : List Request) :
    sumInsertLens (l1 ++ l2) = sumInsertLens l1 + sumInsertLens l2 := by
  simp [sumInsertLens]

theorem segSpec_trans {a b c : Seg} (hab : SegSpec a b) (hbc : SegSpec b c) :
    SegSpec a c := by
  obtain ⟨dr1, df1, hr1, hf1, hs1, hi1, hst1, he1, hh1⟩ := hab
  obtain ⟨dr2, df2, hr2, hf2, hs2, hi2, hst2, he2, hh2⟩ := hbc
  have hbc' : b.current_index ≤ c.current_index := by omega
  have hab' : a.current_index ≤ b.current_index := by omega
  refine ⟨dr1 ++ dr2, df1 ++ df2, ?_, ?_, ?_, ?_, ?_, ?_, ?_⟩
  · rw [hr2, hr1, List.append_assoc]
  · rw [hf2, hf1, List.append_assoc]
  · rw [sumInsertLens_append]; omega
  · intro r hr
    rcases List.mem_append.mp hr with h | h
    · obtain ⟨o, t, rfl, h1, h2⟩ := hi1 r h
      exact ⟨o, t, rfl, h1, le_trans h2 hbc'⟩
    · obtain ⟨o, t, rfl, h1, h2⟩ := hi2 r h
      exact ⟨o, t, rfl, le_trans hab' h1, h2⟩
  · intro r hr
    rcases List.mem_append.mp hr with h | h
    · rcases hst1 r h with ⟨s, e, bo, it, rfl, h1, h2, h3⟩ | ⟨s, e, ps, rfl, h1, h2, h3⟩
      · exact Or.inl ⟨s, e, bo, it, rfl, h1, h2, le_trans h3 hbc'⟩
      · exact Or.inr ⟨s, e, ps, rfl, h1, h2, le_trans h3 hbc'⟩
    · rcases hst2 r h with ⟨s, e, bo, it, rfl, h1, h2, h3⟩ | ⟨s, e, ps, rfl, h1, h2, h3⟩
      · exact Or.inl ⟨s, e, bo, it, rfl, le_trans hab' h1, h2, h3⟩
      · exact Or.inr ⟨s, e, ps, rfl, le_trans hab' h1, h2, h3⟩
  · intro h
    rcases List.append_eq_nil.mp h with ⟨h1, h2⟩
    rw [he2 h2, he1 h1]
  · intro r rest h
    cases hdr1 : dr1 with
    | nil =>
        subst hdr1
        simp only [List.nil_append] at h
        obtain ⟨t, rfl⟩ := hh2 r rest h
        exact ⟨t, by rw [he1 rfl]⟩
    | cons r1 rest1 =>
        subst hdr1
        simp only [List.cons_append, List.cons.injEq] at h
        obtain ⟨t, ht⟩ := hh1 r1 rest1 rfl
        exact ⟨t, by rw [← h.1, ht]⟩

theorem length_pos_of_ne_empty (s : String) (h : s ≠ "") : 0 < s.length := by
  cases s with
  | mk data =>
    cases data with
    | nil => exact absurd rfl h
    | cons c cs => simp [String.length]

theorem processChild_spec (st : InlineState) (c : Child) :
    SegSpec st.toSeg (processChild st c).toSeg := by
  cases c with
  | strong_open => exact segSpec_refl _
  | strong_close => exact segSpec_refl _
  | em_open => exact segSpec_refl _
  | em_close => exact segSpec_refl _
  | unsupported => exact segSpec_refl _
  | softbreak =>
      refine ⟨[Request.insertText st.current_index " "], [], rfl,
        by simp [InlineState.toSeg, processChild], ?_, ?_, ?_, ?_, ?_⟩
      · have h1 : (" ").length = 1 := rfl
        simp [sumInsertLens, insertLen, h1, InlineState.toSeg, processChild, Nat.add_comm]
      · intro r hr
        rcases List.mem_singleton.mp hr with rfl
        exact ⟨st.current_index, " ", rfl, le_refl _, le_refl _⟩
      · intro r hr; cases hr
      · intro h; cases h
      · intro r rest h
        simp only [List.cons.injEq] at h
        exact ⟨" ", h.1.symm⟩
  | text content =>
      by_cases hc : content = ""
      · subst hc
        simp only [processChild, ne_eq, not_true_eq_false, if_false, reduceIte]
        exact segSpec_refl _
      · have hlen : 0 < content.length := length_pos_of_ne_empty content hc
        simp only [processChild, ne_eq, hc, not_false_eq_true, if_true, ite_true]
        by_cases hbi : (st.is_bold || st.is_italic) = true
        · refine ⟨[Request.insertText st.current_index content],
            [Request.updateTextStyle st.current_index (st.current_index + content.length)
              st.is_bold st.is_italic], ?_, ?_, ?_, ?_, ?_, ?_, ?_⟩
          · simp [hbi, InlineState.toSeg]
          · simp [hbi, InlineState.toSeg]
          · simp [hbi, InlineState.toSeg, sumInsertLens, insertLen, Nat.add_comm]
          · intro r hr
            rcases List.mem_singleton.mp hr with rfl
            refine ⟨st.current_index, content, rfl, le_refl _, ?_⟩
            simp [hbi, InlineState.toSeg]
          · intro r hr
            rcases List.mem_singleton.mp hr with rfl
            refine Or.inl ⟨st.current_index, st.current_index + content.length,
              st.is_bold, st.is_italic, rfl, le_refl _, by omega, ?_⟩
            simp [hbi, InlineState.toSeg]
          · intro h; cases h
          · intro r rest h
            simp only [List.cons.injEq] at h
            exact ⟨content, h.1.symm⟩
        · refine ⟨[Request.insertText st.current_index content], [], ?_, ?_, ?_, ?_, ?_, ?_, ?_⟩
          · simp [hbi, InlineState.toSeg]
          · simp [hbi, InlineState.toSeg]
          · simp [hbi, InlineState.toSeg, sumInsertLens, insertLen, Nat.add_comm]
          · intro r hr
            rcases List.mem_singleton.mp hr with rfl
            refine ⟨st.current_index, content, rfl, le_refl _, ?_⟩
            simp [hbi, InlineState.toSeg]
          · intro r hr; cases hr
          · intro h; cases h
          · intro r rest h
            simp only [List.cons.injEq] at h
            exact ⟨content, h.1.symm⟩

theorem processChildren_spec : ∀ (cs : List Child) (st : InlineState),
    SegSpec st.toSeg (processChildren cs st).toSeg
  | [], _ => segSpec_refl _
  | c :: cs, st =>
      segSpec_trans (processChild_spec st c) (processChildren_spec cs (processChild st c))

theorem mem_paragraphFormatting {h : Option Nat} {pb : Bool} {ps pe : Nat} {r : Request}
    (hr : r ∈ paragraphFormatting h pb ps pe) :
    (∃ sty, r = Request.updateParagraphStyle ps pe sty) ∧ ps < pe := by
  unfold paragraphFormatting at hr
  by_cases hlt : pe > ps
  · rw [if_pos hlt] at hr
    cases h with
    | some level =>
        rcases List.mem_singleton.mp hr with rfl
        exact ⟨⟨_, rfl⟩, hlt⟩
    | none =>
        cases pb with
        | true =>
            simp only [ite_true] at hr
            rcases List.mem_singleton.mp hr with rfl
            exact ⟨⟨_, rfl⟩, hlt⟩
        | false => simp only [ite_false] at hr; cases hr
  · rw [if_neg hlt] at hr
    cases hr


@[simp] theorem inlineToSeg_requests (st : InlineState) :
    st.toSeg.requests = st.requests := rfl

@[simp] theorem inlineToSeg_formatting_requests (st : InlineState) :
    st.toSeg.formatting_requests = st.formatting_requests := rfl

@[simp] theorem inlineToSeg_current_index (st : InlineState) :
    st.toSeg.current_index = st.current_index := rfl

@[simp] theorem compToSeg_requests (st : CompState) :
    st.toSeg.requests = st.requests := rfl

@[simp] theorem compToSeg_formatting_requests (st : CompState) :
    st.toSeg.formatting_requests = st.formatting_requests := rfl

@[simp] theorem compToSeg_current_index (st : CompState) :
    st.toSeg.current_index = st.current_index := rfl

@[simp] theorem inlineInit_requests (st : CompState) :
    (inlineInit st).requests = st.requests := rfl

@[simp] theorem inlineInit_formatting_requests (st : CompState) :
    (inlineInit st).formatting_requests = st.formatting_requests := rfl

@[simp] theorem inlineInit_current_index (st : CompState) :
    (inlineInit st).current_index = st.current_index := rfl

/-- Unfolding of the `inline` branch of the token loop. -/
theorem stepToken_inline (children : List Child) (prev : Option Token) (st : CompState) :
    stepToken (Token.inline children) prev st =
      { requests := (processChildren children (inlineInit st)).requests ++
          [Request.insertText (processChildren children (inlineInit st)).current_index "\n"],
        formatting_requests := (processChildren children (inlineInit st)).formatting_requests ++
          paragraphFormatting st.current_heading_level (prevIsParagraphOpen prev)
            st.current_index (processChildren children (inlineInit st)).current_index,
        current_index := (processChildren children (inlineInit st)).current_index + 1,
        current_heading_level := st.current_heading_level } := rfl

theorem stepToken_spec (t : Token) (prev : Option Token) (st : CompState) :
    SegSpec st.toSeg (stepToken t prev st).toSeg := by
  cases t with
  | heading_open level => exact segSpec_refl _
  | heading_close => exact segSpec_refl _
  | paragraph_open => exact segSpec_refl _
  | paragraph_close => exact segSpec_refl _
  | unsupported => exact segSpec_refl _
  | inline children =>
      rw [stepToken_inline]
      obtain ⟨dr, df, hr, hf, hsum, hins, hsty, hemp, hhead⟩ :=
        processChildren_spec children (inlineInit st)
      simp only [inlineToSeg_requests, inlineToSeg_formatting_requests,
        inlineToSeg_current_index, inlineInit_requests, inlineInit_formatting_requests,
        inlineInit_current_index] at hr hf hsum hins hsty hemp hhead
      have hmono : st.current_index ≤ (processChildren children (inlineInit st)).current_index := by
        omega
      have hnl : ("\n").length = 1 := rfl
      refine ⟨dr ++ [Request.insertText (processChildren children (inlineInit st)).current_index "\n"],
        df ++ paragraphFormatting st.current_heading_level (prevIsParagraphOpen prev)
          st.current_index (processChildren children (inlineInit st)).current_index,
        ?_, ?_, ?_, ?_, ?_, ?_, ?_⟩
      · simp only [compToSeg_requests]
        rw [hr, List.append_assoc]
      · simp only [compToSeg_formatting_requests]
        rw [hf, List.append_assoc]
      · simp only [compToSeg_current_index]
        rw [sumInsertLens_append]
        have h1 : sumInsertLens [Request.insertText
            (processChildren children (inlineInit st)).current_index "\n"] = 1 := rfl
        omega
      · intro r hrm
        simp only [compToSeg_current_index]
        rcases List.mem_append.mp hrm with h | h
        · obtain ⟨o, u, rfl, h1, h2⟩ := hins r h
          exact ⟨o, u, rfl, h1, by omega⟩
        · rcases List.mem_singleton.mp h with rfl
          exact ⟨_, "\n", rfl, hmono, by omega⟩
      · intro r hrm
        simp only [compToSeg_current_index]
        rcases List.mem_append.mp hrm with h | h
        · rcases hsty r h with ⟨s, e, bo, it, rfl, h1, h2, h3⟩ | ⟨s, e, ps, rfl, h1, h2, h3⟩
          · exact Or.inl ⟨s, e, bo, it, rfl, h1, h2, by omega⟩
          · exact Or.inr ⟨s, e, ps, rfl, h1, h2, by omega⟩
        · obtain ⟨⟨sty, rfl⟩, hlt⟩ := mem_paragraphFormatting h
          exact Or.inr ⟨st.current_index,
            (processChildren children (inlineInit st)).current_index, sty, rfl,
            le_refl _, hlt, Nat.le_succ _⟩
      · intro h
        rcases List.append_eq_nil.mp h with ⟨_, h2⟩
        cases h2
      · intro r rest h
        simp only [compToSeg_current_index]
        cases hdr : dr with
        | nil =>
            subst hdr
            simp only [List.nil_append, List.cons.injEq] at h
            have hidx := hemp rfl
            exact ⟨"\n", by rw [← h.1, hidx]⟩
        | cons r1 rest1 =>
            subst hdr
            simp only [List.cons_append, List.cons.injEq] at h
            obtain ⟨u, hu⟩ := hhead r1 rest1 rfl
            exact ⟨u, by rw [← h.1, hu]⟩

theorem processTokens_spec : ∀ (ts : List Token) (prev : Option Token) (st : CompState),
    SegSpec st.toSeg (processTokens ts prev st).toSeg
  | [], _, _ => segSpec_refl _
  | t :: ts, prev, st =>
      segSpec_trans (stepToken_spec t prev st)
        (processTokens_spec ts (some t) (stepToken t prev st))

/-! ### Facts about a full compilation run -/

theorem initState_formatting_requests (K : Nat) :
    (initState K).formatting_requests = [] := by
  unfold initState
  split <;> rfl

theorem initState_current_index_ge (K : Nat) : K ≤ (initState K).current_index := by
  unfold initState
  split
  · simp
  · simp

theorem initState_requests_shape (K : Nat) :
    ∀ r ∈ (initState K).requests, ∃ o t, r = Request.insertText o t ∧
      K ≤ o ∧ o + t.length ≤ (initState K).current_index := by
  unfold initState
  split
  · intro r hr
    rcases List.mem_singleton.mp hr with rfl
    have h2 : ("\n\n").length = 2 := rfl
    exact ⟨K, "\n\n", rfl, le_refl _, by simp [h2]⟩
  · intro r hr
    cases hr

theorem initState_sum (K : Nat) :
    sumInsertLens (initState K).requests + K = (initState K).current_index := by
  unfold initState
  split
  · have h2 : sumInsertLens [Request.insertText K "\n\n"] = 2 := rfl
    simp [h2]
    omega
  · simp [sumInsertLens]

theorem compileState_spec (tokens : List Token) (K : Nat) :
    SegSpec (initState K).toSeg (compileState tokens K).toSeg :=
  processTokens_spec tokens none (initState K)

/-- Every element of the insertion accumulator of a finished run is an
`insertText` whose span lies inside `[K, final cursor]`. -/
theorem compile_requests_shape (tokens : List Token) (K : Nat) :
    ∀ r ∈ (compileState tokens K).requests, ∃ o t, r = Request.insertText o t ∧
      K ≤ o ∧ o + t.length ≤ (compileState tokens K).current_index := by
  obtain ⟨dr, df, hr, hf, hsum, hins, hsty, hemp, hhead⟩ := compileState_spec tokens K
  simp only [compToSeg_requests, compToSeg_formatting_requests,
    compToSeg_current_index] at hr hf hsum hins hsty hemp hhead
  have hinit := initState_requests_shape K
  have hige := initState_current_index_ge K
  have himono : (initState K).current_index ≤ (compileState tokens K).current_index := by omega
  intro r hrm
  rw [hr] at hrm
  rcases List.mem_append.mp hrm with h | h
  · obtain ⟨o, t, rfl, h1, h2⟩ := hinit r h
    exact ⟨o, t, rfl, h1, by omega⟩
  · obtain ⟨o, t, rfl, h1, h2⟩ := hins r h
    exact ⟨o, t, rfl, by omega, h2⟩

/-- Every element of the formatting accumulator of a finished run is a style
or paragraph operation over a nonempty range inside `[K, final cursor]`. -/
theorem compile_formatting_shape (tokens : List Token) (K : Nat) :
    ∀ r ∈ (compileState tokens K).formatting_requests,
      styleShape K (compileState tokens K).current_index r := by
  obtain ⟨dr, df, hr, hf, hsum, hins, hsty, hemp, hhead⟩ := compileState_spec tokens K
  simp only [compToSeg_requests, compToSeg_formatting_requests,
    compToSeg_current_index] at hr hf hsum hins hsty hemp hhead
  have hige := initState_current_index_ge K
  intro r hrm
  rw [hf, initState_formatting_requests, List.nil_append] at hrm
  rcases hsty r hrm with ⟨s, e, bo, it, rfl, h1, h2, h3⟩ | ⟨s, e, ps, rfl, h1, h2, h3⟩
  · exact Or.inl ⟨s, e, bo, it, rfl, by omega, h2, h3⟩
  · exact Or.inr ⟨s, e, ps, rfl, by omega, h2, h3⟩

theorem isInsert_of_requests {tokens : List Token} {K : Nat} {r : Request}
    (h : r ∈ (compileState tokens K).requests) : isInsert r = true := by
  obtain ⟨o, t, rfl, _⟩ := compile_requests_shape tokens K r h
  rfl

theorem not_isInsert_of_formatting {tokens : List Token} {K : Nat} {r : Request}
    (h : r ∈ (compileState tokens K).formatting_requests) : isInsert r = false := by
  rcases compile_formatting_shape tokens K r h with ⟨s, e, bo, it, rfl, _⟩ | ⟨s, e, ps, rfl, _⟩
  · rfl
  · rfl

/-- Character-count bookkeeping of a full run: what was inserted is exactly
the cursor advance. -/
theorem compile_sum (tokens : List Token) (K : Nat) :
    sumInsertLens (compileState tokens K).requests + K
      = (compileState tokens K).current_index := by
  obtain ⟨dr, df, hr, hf, hsum, hins, hsty, hemp, hhead⟩ := compileState_spec tokens K
  simp only [compToSeg_requests, compToSeg_current_index] at hr hsum
  have hinit := initState_sum K
  rw [hr, sumInsertLens_append]
  omega

/-! ### Claim theorems -/

/-- C1: for every input token stream and start offset, every `insertText`
operation precedes every `updateTextStyle`/`updateParagraphStyle` operation
in the batch returned by `markdown_to_docs_requests`: any operation sitting
before an insertion is itself an insertion. -/
theorem c1_inserts_precede_formatting (tokens : List Token) (start : Nat)
    (i j : Nat) (hi : i < (markdown_to_docs_requests tokens start).length)
    (hj : j < (markdown_to_docs_requests tokens start).length)
    (hij : i < j)
    (hins : isInsert ((markdown_to_docs_requests tokens start).get ⟨j, hj⟩) = true) :
    isInsert ((markdown_to_docs_requests tokens start).get ⟨i, hi⟩) = true := by
  simp only [List.get_eq_getElem] at hins ⊢
  have hRF : markdown_to_docs_requests tokens start
      = (compileState tokens start).requests ++
        (compileState tokens start).formatting_requests := rfl
  by_cases hjR : j < (compileState tokens start).requests.length
  · have hiR : i < (compileState tokens start).requests.length := lt_trans hij hjR
    have hgi : (markdown_to_docs_requests tokens start)[i] =
        (compileState tokens start).requests[i] :=
      List.getElem_append_left hiR
    rw [hgi]
    exact isInsert_of_requests (List.getElem_mem hiR)
  · exfalso
    have hjR' : (compileState tokens start).requests.length ≤ j := Nat.le_of_not_lt hjR
    have hj2 : j - (compileState tokens start).requests.length
        < (compileState tokens start).formatting_requests.length := by
      rw [hRF] at hj
      simp only [List.length_append] at hj
      omega
    have hgj : (markdown_to_docs_requests tokens start)[j] =
        (compileState tokens start).formatting_requests.get
          ⟨j - (compileState tokens start).requests.length, hj2⟩ :=
      List.getElem_append_right hjR'
    rw [hgj, List.get_eq_getElem] at hins
    have := not_isInsert_of_formatting (List.getElem_mem hj2)
    rw [this] at hins
    cases hins

/-- Witness for C1 at the `# Title` batch with `(i, j) = (0, 1)`. -/
theorem c1_witness :
    isInsert ((markdown_to_docs_requests titleTokens 1).get ⟨0, by decide⟩) = true :=
  c1_inserts_precede_formatting titleTokens 1 0 1 (by decide) (by decide)
    (by decide) (by decide)

/-- C3: for every batch started at offset `K`, the total length of the text
inserted by the batch's `insertText` operations is the final cursor minus
`K` (and the final cursor never falls below `K`). -/
theorem c3_sum_lengths (tokens : List Token) (K : Nat) :
    K ≤ (compileState tokens K).current_index ∧
    sumInsertLens (markdown_to_docs_requests tokens K)
      = (compileState tokens K).current_index - K := by
  have hsum := compile_sum tokens K
  have hf0 : sumInsertLens (compileState tokens K).formatting_requests = 0 := by
    apply List.sum_eq_zero
    intro x hx
    obtain ⟨r, hr, rfl⟩ := List.mem_map.mp hx
    rcases compile_formatting_shape tokens K r hr with
      ⟨s, e, bo, it, rfl, _⟩ | ⟨s, e, ps, rfl, _⟩
    · rfl
    · rfl
  have hb : sumInsertLens (markdown_to_docs_requests tokens K)
      = sumInsertLens (compileState tokens K).requests := by
    have : markdown_to_docs_requests tokens K
        = (compileState tokens K).requests ++
          (compileState tokens K).formatting_requests := rfl
    rw [this, sumInsertLens_append, hf0]
    omega
  constructor
  · omega
  · omega

/-- C7: every `updateTextStyle` operation in a returned batch has
`startIndex < endIndex`, and its range lies inside `[start, final cursor)`,
the span covered by the `insertText` operations, all of which appear earlier
in the batch. -/
theorem c7_text_style_ranges (tokens : List Token) (start : Nat)
    (s e : Nat) (bo it : Bool)
    (h : Request.updateTextStyle s e bo it ∈ markdown_to_docs_requests tokens start) :
    s < e ∧ start ≤ s ∧ e ≤ (compileState tokens start).current_index := by
  have hRF : markdown_to_docs_requests tokens start
      = (compileState tokens start).requests ++
        (compileState tokens start).formatting_requests := rfl
  rw [hRF] at h
  rcases List.mem_append.mp h with hm | hm
  · obtain ⟨o, t, heq, _⟩ := compile_requests_shape tokens start _ hm
    cases heq
  · rcases compile_formatting_shape tokens start _ hm with
      ⟨s2, e2, bo2, it2, heq, h1, h2, h3⟩ | ⟨s2, e2, ps, heq, _⟩
    · cases heq
      exact ⟨h2, h1, h3⟩
    · cases heq

/-- Witness for C7 at the first bold range of `**bold** **bold**`. -/
theorem c7_witness :
    1 < 5 ∧ 1 ≤ 1 ∧ 5 ≤ (compileState doubleBoldTokens 1).current_index :=
  c7_text_style_ranges doubleBoldTokens 1 1 5 true false (by decide)

/-- C5: compiling the level-1 heading `# Title` at start offset 1 yields
exactly the insertion of `Title` at 1, the newline at 6, and a `HEADING_1`
paragraph style over `[1, 6)`. -/
theorem c5_heading_title :
    markdown_to_docs_requests titleTokens 1 =
      [Request.insertText 1 "Title",
       Request.insertText 6 "\n",
       Request.updateParagraphStyle 1 6 (ParaStyle.namedStyleType "HEADING_1")] := by
  decide

/-- C6: compiling two plain paragraphs `A` and `B` separated by a blank line
at start offset 1 yields the four insertions at 1, 2, 3, 4 followed by two
spaced-paragraph styles over `[1, 2)` and `[3, 4)`. -/
theorem c6_two_paragraphs :
    markdown_to_docs_requests (plainTokens ["A", "B"]) 1 =
      [Request.insertText 1 "A",
       Request.insertText 2 "\n",
       Request.insertText 3 "B",
       Request.insertText 4 "\n",
       Request.updateParagraphStyle 1 2 (ParaStyle.spaceBelowPT 10),
       Request.updateParagraphStyle 3 4 (ParaStyle.spaceBelowPT 10)] := by
  decide

/-- Whether a request is an `updateTextStyle` whose half-open range covers
offset `p`. -/
def textStyleCovers (r : Request) (p : Nat) : Bool :=
  match r with
  | Request.updateTextStyle s e _ _ => decide (s ≤ p) && decide (p < e)
  | _ => false

/-- C9: compiling `**bold** **bold**` in one paragraph yields exactly one
contiguous `updateTextStyle` per bolded span (`[1, 5)` and `[6, 10)`), and no
`updateTextStyle` covers offset 5, the space between the two spans. -/
theorem c9_double_bold :
    (markdown_to_docs_requests doubleBoldTokens 1).filter isTextStyle =
      [Request.updateTextStyle 1 5 true false,
       Request.updateTextStyle 6 10 true false] ∧
    (markdown_to_docs_requests doubleBoldTokens 1).all
      (fun r => !(textStyleCovers r 5)) = true := by
  decide

/-- C8: the heading map sends levels 1–3 to the three heading tiers and any
other level to `NORMAL_TEXT`, and a heading over a non-empty paragraph emits
a paragraph range carrying exactly `heading_map level`, so unsupported levels
degrade to plain body style instead of failing. -/
theorem c8_heading_level_mapping (level : Nat) (s : String) (hs : s ≠ "") :
    heading_map 1 = "HEADING_1" ∧ heading_map 2 = "HEADING_2" ∧
    heading_map 3 = "HEADING_3" ∧
    (level ≠ 1 → level ≠ 2 → level ≠ 3 → heading_map level = "NORMAL_TEXT") ∧
    markdown_to_docs_requests
        [Token.heading_open level, Token.inline [Child.text s], Token.heading_close] 1 =
      [Request.insertText 1 s,
       Request.insertText (1 + s.length) "\n",
       Request.updateParagraphStyle 1 (1 + s.length)
         (ParaStyle.namedStyleType (heading_map level))] := by
  refine ⟨rfl, rfl, rfl, ?_, ?_⟩
  · intro h1 h2 h3
    simp [heading_map, h1, h2, h3]
  · have hlen := length_pos_of_ne_empty s hs
    have hgt : 1 + s.length > 1 := by omega
    show (compileState _ 1).requests ++ (compileState _ 1).formatting_requests = _
    have hinit : initState 1 =
        { requests := [], formatting_requests := [],
          current_index := 1, current_heading_level := none } := rfl
    simp only [compileState, hinit, processTokens, stepToken, stepToken_inline,
      processChildren, List.foldl, processChild, hs, ne_eq, not_false_eq_true,
      if_true, ite_true, inlineInit, paragraphFormatting, prevIsParagraphOpen,
      Bool.or_self, Bool.false_or, ite_false, reduceIte]
    simp [hgt]

/-- Witness for C8 at the unsupported level 5 over text `x`. -/
theorem c8_witness :
    heading_map 1 = "HEADING_1" ∧ heading_map 2 = "HEADING_2" ∧
    heading_map 3 = "HEADING_3" ∧
    ((5 : Nat) ≠ 1 → (5 : Nat) ≠ 2 → (5 : Nat) ≠ 3 → heading_map 5 = "NORMAL_TEXT") ∧
    markdown_to_docs_requests
        [Token.heading_open 5, Token.inline [Child.text "x"], Token.heading_close] 1 =
      [Request.insertText 1 "x",
       Request.insertText (1 + "x".length) "\n",
       Request.updateParagraphStyle 1 (1 + "x".length)
         (ParaStyle.namedStyleType (heading_map 5))] :=
  c8_heading_level_mapping 5 "x" (by decide)

/-! ### Offset-shift machinery (for the start-offset claim) -/

/-- Shift all offsets of an inline-loop state by `d`. -/
def shiftInline (d : Nat) (st : InlineState) : InlineState :=
  { requests := st.requests.map (shiftReq d),
    formatting_requests := st.formatting_requests.map (shiftReq d),
    current_index := st.current_index + d,
    is_bold := st.is_bold, is_italic := st.is_italic }

/-- Shift all offsets of a token-loop state by `d`. -/
def shiftComp (d : Nat) (st : CompState) : CompState :=
  { requests := st.requests.map (shiftReq d),
    formatting_requests := st.formatting_requests.map (shiftReq d),
    current_index := st.current_index + d,
    current_heading_level := st.current_heading_level }

theorem processChild_shift (d : Nat) (st : InlineState) (c : Child) :
    processChild (shiftInline d st) c = shiftInline d (processChild st c) := by
  cases c with
  | strong_open => rfl
  | strong_close => rfl
  | em_open => rfl
  | em_close => rfl
  | unsupported => rfl
  | softbreak =>
      simp [processChild, shiftInline, shiftReq, Nat.add_right_comm]
  | text content =>
      by_cases hc : content = ""
      · subst hc
        simp [processChild]
      · by_cases hbi : (st.is_bold || st.is_italic) = true
        · simp [processChild, hc, shiftInline, shiftReq, hbi, Nat.add_right_comm]
        · simp [processChild, hc, shiftInline, shiftReq, hbi, Nat.add_right_comm]

theorem processChildren_shift : ∀ (cs : List Child) (d : Nat) (st : InlineState),
    processChildren cs (shiftInline d st) = shiftInline d (processChildren cs st)
  | [], _, _ => rfl
  | c :: cs, d, st => by
      show processChildren cs (processChild (shiftInline d st) c)
        = shiftInline d (processChildren cs (processChild st c))
      rw [processChild_shift]
      exact processChildren_shift cs d (processChild st c)

theorem paragraphFormatting_shift (h : Option Nat) (pb : Bool) (ps pe d : Nat) :
    paragraphFormatting h pb (ps + d) (pe + d)
      = (paragraphFormatting h pb ps pe).map (shiftReq d) := by
  unfold paragraphFormatting
  by_cases hlt : pe > ps
  · have hlt2 : pe + d > ps + d := by omega
    rw [if_pos hlt, if_pos hlt2]
    cases h with
    | some level => simp [shiftReq]
    | none =>
        cases pb with
        | true => simp [shiftReq]
        | false => simp
  · have hlt2 : ¬ pe + d > ps + d := by omega
    rw [if_neg hlt, if_neg hlt2]
    simp

theorem stepToken_shift (t : Token) (prev : Option Token) (d : Nat) (st : CompState) :
    stepToken t prev (shiftComp d st) = shiftComp d (stepToken t prev st) := by
  cases t with
  | heading_open level => rfl
  | heading_close => rfl
  | paragraph_open => rfl
  | paragraph_close => rfl
  | unsupported => rfl
  | inline children =>
      rw [stepToken_inline, stepToken_inline]
      have hinit : inlineInit (shiftComp d st) = shiftInline d (inlineInit st) := rfl
      rw [hinit, processChildren_shift]
      simp only [shiftComp, shiftInline, CompState.mk.injEq]
      refine ⟨?_, ?_, ?_, trivial⟩
      · simp [shiftReq]
      · rw [paragraphFormatting_shift]
        simp
      · omega

theorem processTokens_shift : ∀ (ts : List Token) (prev : Option Token) (d : Nat) (st : CompState),
    processTokens ts prev (shiftComp d st) = shiftComp d (processTokens ts prev st)
  | [], _, _, _ => rfl
  | t :: ts, prev, d, st => by
      show processTokens ts (some t) (stepToken t prev (shiftComp d st))
        = shiftComp d (processTokens ts (some t) (stepToken t prev st))
      rw [stepToken_shift]
      exact processTokens_shift ts (some t) d (stepToken t prev st)

/-- Prepend fixed prefixes to the two accumulators of a token-loop state
(the loops only append, so prefixes are preserved). -/
def prependComp (pre preF : List Request) (st : CompState) : CompState :=
  { requests := pre ++ st.requests,
    formatting_requests := preF ++ st.formatting_requests,
    current_index := st.current_index,
    current_heading_level := st.current_heading_level }

/-- Prepend fixed prefixes to the two accumulators of an inline-loop state. -/
def prependInline (pre preF : List Request) (st : InlineState) : InlineState :=
  { requests := pre ++ st.requests,
    formatting_requests := preF ++ st.formatting_requests,
    current_index := st.current_index,
    is_bold := st.is_bold, is_italic := st.is_italic }

theorem processChild_prepend (pre preF : List Request) (st : InlineState) (c : Child) :
    processChild (prependInline pre preF st) c
      = prependInline pre preF (processChild st c) := by
  cases c with
  | strong_open => rfl
  | strong_close => rfl
  | em_open => rfl
  | em_close => rfl
  | unsupported => rfl
  | softbreak => simp [processChild, prependInline]
  | text content =>
      by_cases hc : content = ""
      · subst hc
        simp [processChild]
      · by_cases hbi : (st.is_bold || st.is_italic) = true
        · simp [processChild, hc, prependInline, hbi]
        · simp [processChild, hc, prependInline, hbi]

theorem processChildren_prepend : ∀ (cs : List Child) (pre preF : List Request) (st : InlineState),
    processChildren cs (prependInline pre preF st)
      = prependInline pre preF (processChildren cs st)
  | [], _, _, _ => rfl
  | c :: cs, pre, preF, st => by
      show processChildren cs (processChild (prependInline pre preF st) c)
        = prependInline pre preF (processChildren cs (processChild st c))
      rw [processChild_prepend]
      exact processChildren_prepend cs pre preF (processChild st c)

theorem stepToken_prepend (t : Token) (prev : Option Token) (pre preF : List Request)
    (st : CompState) :
    stepToken t prev (prependComp pre preF st)
      = prependComp pre preF (stepToken t prev st) := by
  cases t with
  | heading_open level => rfl
  | heading_close => rfl
  | paragraph_open => rfl
  | paragraph_close => rfl
  | unsupported => rfl
  | inline children =>
      rw [stepToken_inline, stepToken_inline]
      have hinit : inlineInit (prependComp pre preF st)
          = prependInline pre preF (inlineInit st) := rfl
      rw [hinit, processChildren_prepend]
      simp only [prependComp, prependInline, CompState.mk.injEq]
      simp [List.append_assoc]

theorem processTokens_prepend : ∀ (ts : List Token) (prev : Option Token)
    (pre preF : List Request) (st : CompState),
    processTokens ts prev (prependComp pre preF st)
      = prependComp pre preF (processTokens ts prev st)
  | [], _, _, _, _ => rfl
  | t :: ts, prev, pre, preF, st => by
      show processTokens ts (some t) (stepToken t prev (prependComp pre preF st))
        = prependComp pre preF (processTokens ts (some t) (stepToken t prev st))
      rw [stepToken_prepend]
      exact processTokens_prepend ts (some t) pre preF (stepToken t prev st)

/-- C2: for every token stream, a batch compiled at start offset `N > 1`
opens with the two-newline separator inserted at `N`, and the remainder is
exactly the batch compiled at offset 1 with every offset shifted by `N + 1`
(i.e. computed relative to the post-separator cursor `N + 2`); at start
offset 1 no separator is emitted and the first `insertText`, when one
exists, sits at offset 1. -/
theorem c2_separator_and_shift (tokens : List Token) (N : Nat) (hN : 1 < N) :
    markdown_to_docs_requests tokens N
      = Request.insertText N "\n\n" ::
          (markdown_to_docs_requests tokens 1).map (shiftReq (N + 1)) ∧
    ((∃ r ∈ markdown_to_docs_requests tokens 1, isInsert r = true) →
      ∃ t rest, markdown_to_docs_requests tokens 1
        = Request.insertText 1 t :: rest) := by
  constructor
  · have hinitN : initState N = prependComp [Request.insertText N "\n\n"] []
        (shiftComp (N + 1) (initState 1)) := by
      have h1 : initState 1 =
          { requests := [], formatting_requests := [],
            current_index := 1, current_heading_level := none } := rfl
      rw [h1]
      unfold initState
      rw [if_pos hN]
      simp only [prependComp, shiftComp, CompState.mk.injEq, List.map_nil,
        List.append_nil, List.nil_append, and_true, true_and]
      omega
    have hrun : compileState tokens N
        = prependComp [Request.insertText N "\n\n"] []
            (shiftComp (N + 1) (compileState tokens 1)) := by
      unfold compileState
      rw [hinitN, processTokens_prepend, processTokens_shift]
    show (compileState tokens N).requests ++ (compileState tokens N).formatting_requests
      = _
    rw [hrun]
    show (Request.insertText N "\n\n" ::
        ((compileState tokens 1).requests.map (shiftReq (N + 1)))) ++
        ([] ++ ((compileState tokens 1).formatting_requests.map (shiftReq (N + 1)))) = _
    have hb : markdown_to_docs_requests tokens 1
        = (compileState tokens 1).requests ++
          (compileState tokens 1).formatting_requests := rfl
    rw [hb, List.map_append]
    simp
  · rintro ⟨r, hr, hins⟩
    obtain ⟨dr, df, hrq, hfq, hsum, hinsS, hsty, hemp, hhead⟩ := compileState_spec tokens 1
    simp only [compToSeg_requests, compToSeg_formatting_requests,
      compToSeg_current_index] at hrq hfq hsum hinsS hsty hemp hhead
    have hinit1r : (initState 1).requests = [] := rfl
    have hinit1i : (initState 1).current_index = 1 := rfl
    rw [hinit1r, List.nil_append] at hrq
    rw [hinit1i] at hhead
    have hrmem : r ∈ (compileState tokens 1).requests ∨
        r ∈ (compileState tokens 1).formatting_requests := List.mem_append.mp hr
    rcases hrmem with hm | hm
    · rw [hrq] at hm
      cases hdr : dr with
      | nil => subst hdr; cases hm
      | cons r1 rest1 =>
          obtain ⟨t, ht⟩ := hhead r1 rest1 hdr
          refine ⟨t, rest1 ++ (compileState tokens 1).formatting_requests, ?_⟩
          have hb : markdown_to_docs_requests tokens 1
              = (compileState tokens 1).requests ++
                (compileState tokens 1).formatting_requests := rfl
          rw [hb, hrq, hdr, ht]
          rfl
    · have := not_isInsert_of_formatting hm
      rw [this] at hins
      cases hins

/-- Witness for C2 at the `# Title` token stream with start offset 3. -/
theorem c2_witness :
    (markdown_to_docs_requests titleTokens 3
      = Request.insertText 3 "\n\n" ::
          (markdown_to_docs_requests titleTokens 1).map (shiftReq 4) ∧
    ((∃ r ∈ markdown_to_docs_requests titleTokens 1, isInsert r = true) →
      ∃ t rest, markdown_to_docs_requests titleTokens 1
        = Request.insertText 1 t :: rest)) :=
  c2_separator_and_shift titleTokens 3 (by decide)

/-! ### Plain-text batches -/

theorem processTokens_cons (t : Token) (ts : List Token) (prev : Option Token)
    (st : CompState) :
    processTokens (t :: ts) prev st = processTokens ts (some t) (stepToken t prev st) := rfl

/-- Effect of one plain paragraph token (an `inline` with a single non-empty
text child, directly preceded by `paragraph_open`, outside any heading). -/
theorem stepToken_plain (s : String) (hs : s ≠ "") (st : CompState)
    (hh : st.current_heading_level = none) :
    stepToken (Token.inline [Child.text s]) (some Token.paragraph_open) st =
      { requests := st.requests ++
          [Request.insertText st.current_index s,
           Request.insertText (st.current_index + s.length) "\n"],
        formatting_requests := st.formatting_requests ++
          [Request.updateParagraphStyle st.current_index (st.current_index + s.length)
            (ParaStyle.spaceBelowPT 10)],
        current_index := st.current_index + s.length + 1,
        current_heading_level := none } := by
  have hlen := length_pos_of_ne_empty s hs
  have hgt : st.current_index + s.length > st.current_index := by omega
  rw [stepToken_inline]
  simp only [processChildren, List.foldl, processChild, hs, ne_eq, not_false_eq_true,
    if_true, ite_true, inlineInit, Bool.or_self, ite_false, reduceIte,
    paragraphFormatting, prevIsParagraphOpen, hh, hgt, if_pos hgt,
    CompState.mk.injEq]
  simp

theorem processTokens_plain (ps : List String) :
    ∀ (prev : Option Token) (st : CompState),
    st.current_heading_level = none → (∀ s ∈ ps, s ≠ "") →
    ((processTokens (plainTokens ps) prev st).requests.countP isInsert
        = st.requests.countP isInsert + 2 * ps.length) ∧
    ((processTokens (plainTokens ps) prev st).formatting_requests.countP isTextStyle
        = st.formatting_requests.countP isTextStyle) ∧
    ((processTokens (plainTokens ps) prev st).formatting_requests.countP isParaSpace
        = st.formatting_requests.countP isParaSpace + ps.length) ∧
    ((processTokens (plainTokens ps) prev st).formatting_requests.length
        = st.formatting_requests.length + ps.length) ∧
    (processTokens (plainTokens ps) prev st).current_heading_level = none := by
  induction ps with
  | nil =>
      intro prev st hh h
      simp [plainTokens, processTokens, hh]
  | cons s rest ih =>
      intro prev st hh h
      have hs : s ≠ "" := h s (List.mem_cons_self s rest)
      have hrest : ∀ x ∈ rest, x ≠ "" := fun x hx => h x (List.mem_cons_of_mem s hx)
      have hunfold : plainTokens (s :: rest)
          = Token.paragraph_open :: Token.inline [Child.text s] ::
              Token.paragraph_close :: plainTokens rest := rfl
      rw [hunfold, processTokens_cons, processTokens_cons, processTokens_cons]
      have hopen : stepToken Token.paragraph_open prev st = st := rfl
      rw [hopen]
      rw [stepToken_plain s hs st hh]
      have hclose : ∀ (st2 : CompState),
          stepToken Token.paragraph_close (some (Token.inline [Child.text s])) st2 = st2 :=
        fun _ => rfl
      rw [hclose]
      obtain ⟨ih1, ih2, ih3, ih4, ih5⟩ := ih (some Token.paragraph_close)
        { requests := st.requests ++
            [Request.insertText st.current_index s,
             Request.insertText (st.current_index + s.length) "\n"],
          formatting_requests := st.formatting_requests ++
            [Request.updateParagraphStyle st.current_index (st.current_index + s.length)
              (ParaStyle.spaceBelowPT 10)],
          current_index := st.current_index + s.length + 1,
          current_heading_level := none } rfl hrest
      refine ⟨?_, ?_, ?_, ?_, ih5⟩
      · rw [ih1]
        simp only [List.countP_append]
        have : List.countP isInsert
            [Request.insertText st.current_index s,
             Request.insertText (st.current_index + s.length) "\n"] = 2 := rfl
        rw [this]
        have hl : rest.length + 1 = (s :: rest).length := rfl
        omega
      · rw [ih2]
        simp only [List.countP_append]
        have : List.countP isTextStyle
            [Request.updateParagraphStyle st.current_index (st.current_index + s.length)
              (ParaStyle.spaceBelowPT 10)] = 0 := rfl
        rw [this]
        omega
      · rw [ih3]
        simp only [List.countP_append]
        have : List.countP isParaSpace
            [Request.updateParagraphStyle st.current_index (st.current_index + s.length)
              (ParaStyle.spaceBelowPT 10)] = 1 := rfl
        rw [this]
        simp [List.length_cons]
        omega
      · rw [ih4]
        simp [List.length_cons]
        omega

theorem initState_heading (K : Nat) : (initState K).current_heading_level = none := by
  unfold initState
  split <;> rfl

theorem initState_countP_isInsert (K : Nat) :
    (initState K).requests.countP isInsert = if 1 < K then 1 else 0 := by
  unfold initState
  by_cases h : K > 1
  · rw [if_pos h, if_pos h]
    rfl
  · rw [if_neg h, if_neg h]
    rfl

/-- C4 counterexample: for the plain one-paragraph text `A` at start offset 1
the batch does contain a style/structure operation (the spaced-paragraph
`updateParagraphStyle 1 2 spaceBelow`), so the claimed "zero style or
structure operations" is false. -/
theorem c4_counterexample :
    0 < (markdown_to_docs_requests (plainTokens ["A"]) 1).countP
      (fun r => !(isInsert r)) := by
  decide

/-- C4 (amended): for plain text with no markup syntax the batch contains
exactly one `insertText` per paragraph plus one newline `insertText` per
paragraph (plus the separator insertion when the start offset exceeds 1),
zero `updateTextStyle` operations, and exactly one spaced-paragraph
`updateParagraphStyle` per paragraph — which are also its only non-insert
operations. -/
theorem c4_plain_text_amended (ps : List String) (start : Nat)
    (h : ∀ s ∈ ps, s ≠ "") :
    (markdown_to_docs_requests (plainTokens ps) start).countP isInsert
        = 2 * ps.length + (if 1 < start then 1 else 0) ∧
    (markdown_to_docs_requests (plainTokens ps) start).countP isTextStyle = 0 ∧
    (markdown_to_docs_requests (plainTokens ps) start).countP isParaSpace = ps.length ∧
    (markdown_to_docs_requests (plainTokens ps) start).countP
        (fun r => !(isInsert r)) = ps.length := by
  obtain ⟨h1, h2, h3, h4, _⟩ :=
    processTokens_plain ps none (initState start) (initState_heading start) h
  have hC : compileState (plainTokens ps) start
      = processTokens (plainTokens ps) none (initState start) := rfl
  rw [← hC] at h1 h2 h3 h4
  rw [initState_countP_isInsert] at h1
  rw [initState_formatting_requests] at h2 h3 h4
  simp only [List.countP_nil, List.length_nil, Nat.zero_add] at h2 h3 h4
  have hbatch : markdown_to_docs_requests (plainTokens ps) start
      = (compileState (plainTokens ps) start).requests ++
        (compileState (plainTokens ps) start).formatting_requests := rfl
  have hreqTS : (compileState (plainTokens ps) start).requests.countP isTextStyle = 0 := by
    rw [List.countP_eq_zero]
    intro r hr
    obtain ⟨o, t, rfl, _⟩ := compile_requests_shape (plainTokens ps) start r hr
    simp [isTextStyle]
  have hreqPS : (compileState (plainTokens ps) start).requests.countP isParaSpace = 0 := by
    rw [List.countP_eq_zero]
    intro r hr
    obtain ⟨o, t, rfl, _⟩ := compile_requests_shape (plainTokens ps) start r hr
    simp [isParaSpace]
  have hreqNI : (compileState (plainTokens ps) start).requests.countP
      (fun r => !(isInsert r)) = 0 := by
    rw [List.countP_eq_zero]
    intro r hr
    obtain ⟨o, t, rfl, _⟩ := compile_requests_shape (plainTokens ps) start r hr
    simp [isInsert]
  have hfmtsIns : (compileState (plainTokens ps) start).formatting_requests.countP
      isInsert = 0 := by
    rw [List.countP_eq_zero]
    intro r hr
    rw [not_isInsert_of_formatting hr]
    simp
  have hfmtsNI : (compileState (plainTokens ps) start).formatting_requests.countP
      (fun r => !(isInsert r))
      = (compileState (plainTokens ps) start).formatting_requests.length := by
    rw [List.countP_eq_length]
    intro r hr
    rw [not_isInsert_of_formatting hr]
    rfl
  rw [hbatch]
  simp only [List.countP_append]
  refine ⟨by omega, by omega, by omega, by omega⟩

/-- Witness for the amended C4 at the two plain paragraphs `A`, `B` and
start offset 1. -/
theorem c4_witness :
    (markdown_to_docs_requests (plainTokens ["A", "B"]) 1).countP isInsert
        = 2 * (["A", "B"] : List String).length + (if 1 < 1 then 1 else 0) ∧
    (markdown_to_docs_requests (plainTokens ["A", "B"]) 1).countP isTextStyle = 0 ∧
    (markdown_to_docs_requests (plainTokens ["A", "B"]) 1).countP isParaSpace
        = (["A", "B"] : List String).length ∧
    (markdown_to_docs_requests (plainTokens ["A", "B"]) 1).countP
        (fun r => !(isInsert r)) = (["A", "B"] : List String).length :=
  c4_plain_text_amended ["A", "B"] 1 (by decide)

/-! ### Softbreak positions are never character-styled -/

theorem processChildren_append (a b : List Child) (st : InlineState) :
    processChildren (a ++ b) st = processChildren b (processChildren a st) := by
  simp [processChildren, List.foldl_append]

theorem processTokens_append : ∀ (a b : List Token) (prev : Option Token) (st : CompState),
    processTokens (a ++ b) prev st
      = processTokens b (a.foldl (fun _ t => some t) prev) (processTokens a prev st)
  | [], _, _, _ => rfl
  | t :: a, b, prev, st => by
      show processTokens (a ++ b) (some t) (stepToken t prev st) = _
      rw [processTokens_append a b (some t) (stepToken t prev st)]
      rfl

/-- C10: the single-space insertion emitted for a softbreak is never covered
by any `updateTextStyle` range, even when a bold/italic flag is active across
the break: every `updateTextStyle` in the batch for a token stream whose
inline token has a softbreak between child runs `cs1` and `cs2` misses the
cursor position `p` at which the softbreak's space is inserted. -/
theorem c10_softbreak_never_styled (ts1 ts2 : List Token) (cs1 cs2 : List Child)
    (start : Nat) (s e : Nat) (bo it : Bool)
    (hmem : Request.updateTextStyle s e bo it ∈
      markdown_to_docs_requests
        (ts1 ++ Token.inline (cs1 ++ Child.softbreak :: cs2) :: ts2) start) :
    ¬ (s ≤ (processChildren cs1
          (inlineInit (processTokens ts1 none (initState start)))).current_index ∧
       (processChildren cs1
          (inlineInit (processTokens ts1 none (initState start)))).current_index < e) := by
  rintro ⟨hsp, hpe⟩
  have hst1 : processTokens ts1 none (initState start) = compileState ts1 start := rfl
  rw [hst1] at hsp hpe
  have hsplit : compileState
        (ts1 ++ Token.inline (cs1 ++ Child.softbreak :: cs2) :: ts2) start
      = processTokens ts2 (some (Token.inline (cs1 ++ Child.softbreak :: cs2)))
          (stepToken (Token.inline (cs1 ++ Child.softbreak :: cs2))
            (ts1.foldl (fun _ t => some t) none) (compileState ts1 start)) := by
    show processTokens (ts1 ++ Token.inline (cs1 ++ Child.softbreak :: cs2) :: ts2)
        none (initState start) = _
    rw [processTokens_append]
    rfl
  -- the style op lives in the formatting accumulator of the full run
  have hmem2 : Request.updateTextStyle s e bo it ∈
      (compileState (ts1 ++ Token.inline (cs1 ++ Child.softbreak :: cs2) :: ts2)
        start).formatting_requests := by
    rcases List.mem_append.mp hmem with hm | hm
    · obtain ⟨o, t, heq, _⟩ := compile_requests_shape _ start _ hm
      cases heq
    · exact hm
  rw [hsplit] at hmem2
  -- segment over ts2
  obtain ⟨dr2, df2, hr2, hf2, hsum2, hins2, hsty2, hemp2, hhead2⟩ :=
    processTokens_spec ts2 (some (Token.inline (cs1 ++ Child.softbreak :: cs2)))
      (stepToken (Token.inline (cs1 ++ Child.softbreak :: cs2))
        (ts1.foldl (fun _ t => some t) none) (compileState ts1 start))
  simp only [compToSeg_requests, compToSeg_formatting_requests,
    compToSeg_current_index] at hr2 hf2 hsum2 hins2 hsty2 hemp2 hhead2
  rw [hf2] at hmem2
  -- unfold the inline step
  rw [stepToken_inline] at hmem2 hsty2 hsum2
  simp only at hmem2 hsty2 hsum2
  -- decompose the children walk around the softbreak
  have hcs : processChildren (cs1 ++ Child.softbreak :: cs2)
        (inlineInit (compileState ts1 start))
      = processChildren cs2 (processChild
          (processChildren cs1 (inlineInit (compileState ts1 start))) Child.softbreak) := by
    rw [processChildren_append]
    rfl
  -- segment over cs2, starting just past the softbreak space
  obtain ⟨drB, dfB, hrB, hfB, hsumB, hinsB, hstyB, hempB, hheadB⟩ :=
    processChildren_spec cs2 (processChild
      (processChildren cs1 (inlineInit (compileState ts1 start))) Child.softbreak)
  simp only [inlineToSeg_requests, inlineToSeg_formatting_requests,
    inlineToSeg_current_index] at hrB hfB hsumB hinsB hstyB hempB hheadB
  have hsbI : (processChild
      (processChildren cs1 (inlineInit (compileState ts1 start)))
        Child.softbreak).current_index
      = (processChildren cs1 (inlineInit (compileState ts1 start))).current_index + 1 :=
    rfl
  rw [hsbI] at hsumB hstyB
  -- segment over cs1
  obtain ⟨drA, dfA, hrA, hfA, hsumA, hinsA, hstyA, hempA, hheadA⟩ :=
    processChildren_spec cs1 (inlineInit (compileState ts1 start))
  simp only [inlineToSeg_requests, inlineToSeg_formatting_requests,
    inlineToSeg_current_index, inlineInit_requests, inlineInit_formatting_requests,
    inlineInit_current_index] at hrA hfA hsumA hinsA hstyA hempA hheadA
  rw [hcs, hfB] at hmem2
  have hsbF2 : (processChild
      (processChildren cs1 (inlineInit (compileState ts1 start)))
        Child.softbreak).formatting_requests
      = (processChildren cs1 (inlineInit (compileState ts1 start))).formatting_requests :=
    rfl
  rw [hsbF2, hfA] at hmem2
  -- now split the membership
  rcases List.mem_append.mp hmem2 with hm | hm
  · rcases List.mem_append.mp hm with hm2 | hm2
    · rcases List.mem_append.mp hm2 with hm3 | hm3
      · rcases List.mem_append.mp hm3 with hm4 | hm4
        · -- from the run over ts1: ends before the paragraph begins
          rcases compile_formatting_shape ts1 start _ hm4 with
            ⟨s2, e2, b2, i2, heq, h1, h2, h3⟩ | ⟨s2, e2, ps2, heq, _⟩
          · cases heq
            omega
          · cases heq
        · -- from cs1: ends at or before the softbreak position
          rcases hstyA _ hm4 with ⟨s2, e2, b2, i2, heq, h1, h2, h3⟩ | ⟨s2, e2, ps2, heq, _⟩
          · cases heq
            omega
          · cases heq
      · -- from cs2: starts strictly after the softbreak position
        rcases hstyB _ hm3 with ⟨s2, e2, b2, i2, heq, h1, h2, h3⟩ | ⟨s2, e2, ps2, heq, _⟩
        · cases heq
          omega
        · cases heq
    · -- the paragraph structural op is not an updateTextStyle
      obtain ⟨⟨sty, heq⟩, _⟩ := mem_paragraphFormatting hm2
      cases heq
  · -- from the run over ts2: starts after the whole paragraph
    have hmono : (processChildren cs1
        (inlineInit (compileState ts1 start))).current_index + 1
          ≤ (processChildren (cs1 ++ Child.softbreak :: cs2)
              (inlineInit (compileState ts1 start))).current_index := by
      rw [hcs]
      omega
    rcases hsty2 _ hm with ⟨s2, e2, b2, i2, heq, h1, h2, h3⟩ | ⟨s2, e2, ps2, heq, _⟩
    · cases heq
      omega
    · cases heq

/-- Witness for C10: bold spans a softbreak (`**A␤B**`); the style range
`[1, 2)` on `A` does not cover the space position 2. -/
theorem c10_witness :
    ¬ ((1 : Nat) ≤ (processChildren [Child.strong_open, Child.text "A"]
          (inlineInit (processTokens [Token.paragraph_open] none (initState 1)))).current_index ∧
       (processChildren [Child.strong_open, Child.text "A"]
          (inlineInit (processTokens [Token.paragraph_open] none (initState 1)))).current_index
         < 2) :=
  c10_softbreak_never_styled [Token.paragraph_open] [Token.paragraph_close]
    [Child.strong_open, Child.text "A"] [Child.text "B", Child.strong_close]
    1 1 2 true false (by decide)
